import Mathlib

/-!
Verification of the semantic retrieval / conversational-context engine of the
difangzhi (local chronicles) document-management system.

The frontend sources declare the request/response shapes of the AI endpoints
(`src/unnamed/part_016`, `src/frontend/src/services/api.ts`), the category-tree
construction (`src/unnamed/part_015`, `useCategories`) and an LRU cache
(`src/frontend/src/utils/performance.ts`).  Those are embedded directly from the
source.  The retrieval engine itself (hybrid ranker, chunker/ingestion pipeline,
vector index, session manager) is a backend component that is not part of the
sources; where a property concerns it, the definitions below are modelled from
the specification and are marked `Modelled from the spec:` in their doc comment.

Scores are represented as rationals; machine integers and timestamps as `Nat`.
-/

namespace Difangzhi

/-! ## Declared response shapes (from the source) -/

/-- Field names of the `ChatResponse` interface declared by the inference
service (`src/unnamed/part_016`, lines 220–224): `content`, `tokens_used` and
the optional `sources`. -/
def chatResponseFields : List String := ["content", "tokens_used", "sources"]

/-- Field names of the `SemanticSearchResponse` interface declared by the
inference service (`src/unnamed/part_016`, lines 246–250): `answer`, `sources`,
`confidence`.  The frontend `AISearchResult` (`src/unnamed/part_007`) declares
the same three fields. -/
def semanticSearchResponseFields : List String := ["answer", "sources", "confidence"]

/-- The `SearchSource` interface declared by the inference service
(`src/unnamed/part_016`, lines 226–233). -/
structure SearchSource where
  id : Nat
  title : String
  content : String
  score : ℚ
  region : Option String
  year : Option Nat
deriving Repr, DecidableEq

/-- The `ChatResponse` interface declared by the inference service
(`src/unnamed/part_016`, lines 220–224). -/
structure ChatResponse where
  content : String
  tokens_used : Nat
  sources : Option (List SearchSource)
deriving Repr, DecidableEq

/-- The `SemanticSearchResponse` interface declared by the inference service
(`src/unnamed/part_016`, lines 246–250). -/
structure SemanticSearchResponse where
  answer : String
  sources : List SearchSource
  confidence : ℚ
deriving Repr, DecidableEq

/-! ## Hybrid ranker (modelled from the spec) -/

/-- Modelled from the spec: the Hybrid Ranker is a backend component absent from
the sources.  A candidate produced by the Vector Index together with the lexical
store: chunk id, raw vector similarity, raw lexical score, and the metadata
predicate used for the boost (exact filter match). -/
structure Candidate where
  chunkId : Nat
  vectorSim : ℚ
  lexScore : ℚ
  exactMatch : Bool
deriving Repr, DecidableEq

/-- Modelled from the spec: ranker configuration — vector weight, lexical
weight, and the additive boost for exact filter matches. -/
structure RankerConfig where
  wV : ℚ
  wL : ℚ
  boostValue : ℚ
deriving Repr, DecidableEq

/-- Smallest element of a list of rationals (`0` for the empty list). -/
def listMin : List ℚ → ℚ
  | [] => 0
  | x :: xs => xs.foldl min x

/-- Largest element of a list of rationals (`0` for the empty list). -/
def listMax : List ℚ → ℚ
  | [] => 0
  | x :: xs => xs.foldl max x

/-- Modelled from the spec: min-max normalization of a component within the
current candidate set. -/
def minMaxNormalize (lo hi x : ℚ) : ℚ :=
  if hi = lo then 0 else (x - lo) / (hi - lo)

/-- Normalized vector similarity of `e` within the candidate set `cands`. -/
def vNorm (cands : List Candidate) (e : Candidate) : ℚ :=
  minMaxNormalize (listMin (cands.map Candidate.vectorSim))
    (listMax (cands.map Candidate.vectorSim)) e.vectorSim

/-- Normalized lexical score of `e` within the candidate set `cands`. -/
def lNorm (cands : List Candidate) (e : Candidate) : ℚ :=
  minMaxNormalize (listMin (cands.map Candidate.lexScore))
    (listMax (cands.map Candidate.lexScore)) e.lexScore

/-- Modelled from the spec: small additive boost for exact filter matches. -/
def boost (cfg : RankerConfig) (e : Candidate) : ℚ :=
  if e.exactMatch then cfg.boostValue else 0

/-- Modelled from the spec: the composite score
`w_v * normalize(vectorSimilarity) + w_l * normalize(lexicalScore) + boost(metadata)`. -/
def compositeScore (cfg : RankerConfig) (cands : List Candidate) (e : Candidate) : ℚ :=
  cfg.wV * vNorm cands e + cfg.wL * lNorm cands e + boost cfg e

/-- The ranking order of the Hybrid Ranker: `a` comes before `b` when `a`'s
composite score is larger, or the scores are equal and `a`'s chunk id is not
larger (deterministic tie-break by chunk id). -/
def rankBefore (cfg : RankerConfig) (cands : List Candidate) (a b : Candidate) : Prop :=
  compositeScore cfg cands b < compositeScore cfg cands a ∨
    (compositeScore cfg cands a = compositeScore cfg cands b ∧ a.chunkId ≤ b.chunkId)

instance (cfg : RankerConfig) (cands : List Candidate) :
    DecidableRel (rankBefore cfg cands) := fun a b =>
  inferInstanceAs (Decidable (compositeScore cfg cands b < compositeScore cfg cands a ∨
    (compositeScore cfg cands a = compositeScore cfg cands b ∧ a.chunkId ≤ b.chunkId)))

instance (cfg : RankerConfig) (cands : List Candidate) :
    IsTotal Candidate (rankBefore cfg cands) := by
  constructor
  intro a b
  rcases lt_trichotomy (compositeScore cfg cands a) (compositeScore cfg cands b) with h | h | h
  · exact Or.inr (Or.inl h)
  · rcases Nat.le_total a.chunkId b.chunkId with hid | hid
    · exact Or.inl (Or.inr ⟨h, hid⟩)
    · exact Or.inr (Or.inr ⟨h.symm, hid⟩)
  · exact Or.inl (Or.inl h)

instance (cfg : RankerConfig) (cands : List Candidate) :
    IsTrans Candidate (rankBefore cfg cands) := by
  constructor
  intro a b c hab hbc
  rcases hab with hab | ⟨hab, hab'⟩ <;> rcases hbc with hbc | ⟨hbc, hbc'⟩
  · exact Or.inl (lt_trans hbc hab)
  · exact Or.inl (hbc ▸ hab)
  · exact Or.inl (hab ▸ hbc)
  · exact Or.inr ⟨hab.trans hbc, le_trans hab' hbc'⟩

/-- Modelled from the spec: the Hybrid Ranker produces a RetrievalResult ordered
by composite score descending, ties broken by chunk id. -/
def hybridRank (cfg : RankerConfig) (cands : List Candidate) : List Candidate :=
  List.insertionSort (rankBefore cfg cands) cands

/-! ## C2, C3 -/

/-- C2: for every configuration and candidate set, the RetrievalResult produced
by the hybrid ranker is a permutation of the candidate set sorted in descending
order of composite score, equal scores ordered by chunk id. -/
theorem hybridRank_sorted_tiebreak (cfg : RankerConfig) (cands : List Candidate) :
    (hybridRank cfg cands).Sorted (rankBefore cfg cands) ∧
      List.Perm (hybridRank cfg cands) cands :=
  ⟨List.sorted_insertionSort _ _, List.perm_insertionSort _ _⟩

theorem foldl_min_le_init (xs : List ℚ) (a : ℚ) : xs.foldl min a ≤ a := by
  induction xs generalizing a with
  | nil => simp
  | cons x xs ih => exact le_trans (ih (min a x)) (min_le_left a x)

theorem foldl_min_le_mem (xs : List ℚ) : ∀ (a x : ℚ), x ∈ xs → xs.foldl min a ≤ x := by
  induction xs with
  | nil => intro a x hx; cases hx
  | cons y ys ih =>
    intro a x hx
    rcases List.mem_cons.mp hx with rfl | h
    · exact le_trans (foldl_min_le_init ys (min a x)) (min_le_right a x)
    · exact ih (min a y) x h

theorem init_le_foldl_max (xs : List ℚ) (a : ℚ) : a ≤ xs.foldl max a := by
  induction xs generalizing a with
  | nil => simp
  | cons x xs ih => exact le_trans (le_max_left a x) (ih (max a x))

theorem mem_le_foldl_max (xs : List ℚ) : ∀ (a x : ℚ), x ∈ xs → x ≤ xs.foldl max a := by
  induction xs with
  | nil => intro a x hx; cases hx
  | cons y ys ih =>
    intro a x hx
    rcases List.mem_cons.mp hx with rfl | h
    · exact le_trans (le_max_right a x) (init_le_foldl_max ys (max a x))
    · exact ih (max a y) x h

theorem listMin_le_of_mem {l : List ℚ} {x : ℚ} (hx : x ∈ l) : listMin l ≤ x := by
  cases l with
  | nil => cases hx
  | cons y ys =>
    rcases List.mem_cons.mp hx with rfl | h
    · exact foldl_min_le_init ys x
    · exact foldl_min_le_mem ys y x h

theorem le_listMax_of_mem {l : List ℚ} {x : ℚ} (hx : x ∈ l) : x ≤ listMax l := by
  cases l with
  | nil => cases hx
  | cons y ys =>
    rcases List.mem_cons.mp hx with rfl | h
    · exact init_le_foldl_max ys x
    · exact mem_le_foldl_max ys y x h

theorem vNorm_nonneg {cands : List Candidate} {e : Candidate} (he : e ∈ cands) :
    0 ≤ vNorm cands e := by
  unfold vNorm minMaxNormalize
  have hmem : e.vectorSim ∈ cands.map Candidate.vectorSim :=
    List.mem_map_of_mem _ he
  have hlo : listMin (cands.map Candidate.vectorSim) ≤ e.vectorSim :=
    listMin_le_of_mem hmem
  have hhi : e.vectorSim ≤ listMax (cands.map Candidate.vectorSim) :=
    le_listMax_of_mem hmem
  by_cases h : listMax (cands.map Candidate.vectorSim) = listMin (cands.map Candidate.vectorSim)
  · simp [h]
  · rw [if_neg h]
    have hlt : listMin (cands.map Candidate.vectorSim) < listMax (cands.map Candidate.vectorSim) :=
      lt_of_le_of_ne (le_trans hlo hhi) (Ne.symm h)
    apply div_nonneg <;> linarith

/-- C3 (amended): fixing the candidate set, the entry, the lexical weight and
the boost, the composite score is monotone non-decreasing in the vector weight
`w_v` (the normalized vector similarity is non-negative). -/
theorem compositeScore_monotone_in_wV (cands : List Candidate) (e : Candidate)
    (wL bv w w' : ℚ) (he : e ∈ cands) (hw : w ≤ w') :
    compositeScore ⟨w, wL, bv⟩ cands e ≤ compositeScore ⟨w', wL, bv⟩ cands e := by
  unfold compositeScore
  have hv : 0 ≤ vNorm cands e := vNorm_nonneg he
  have := mul_le_mul_of_nonneg_right hw hv
  simp only [boost]
  linarith

/-- Witness for C3 (amended): concrete evaluation at a two-candidate set. -/
theorem compositeScore_monotone_in_wV_witness :
    compositeScore ⟨0, 1, 1⟩ [⟨1, 1, 0, false⟩, ⟨2, 0, 0, false⟩] ⟨1, 1, 0, false⟩ ≤
      compositeScore ⟨1, 1, 1⟩ [⟨1, 1, 0, false⟩, ⟨2, 0, 0, false⟩] ⟨1, 1, 0, false⟩ :=
  compositeScore_monotone_in_wV [⟨1, 1, 0, false⟩, ⟨2, 0, 0, false⟩] ⟨1, 1, 0, false⟩
    1 1 0 1 (by decide) (by norm_num)

/-- C3 (counterexample): the claim that the composite score is non-increasing as
`w_v` increases fails — at this candidate set the normalized vector similarity of
chunk 1 is `1`, so raising `w_v` from `0` to `1` strictly increases the score. -/
theorem compositeScore_wV_nonincreasing_refuted :
    (0 : ℚ) ≤ 1 ∧
      ¬ (compositeScore ⟨1, 0, 0⟩ [⟨1, 1, 0, false⟩, ⟨2, 0, 0, false⟩] ⟨1, 1, 0, false⟩ ≤
        compositeScore ⟨0, 0, 0⟩ [⟨1, 1, 0, false⟩, ⟨2, 0, 0, false⟩] ⟨1, 1, 0, false⟩) := by
  constructor
  · norm_num
  · simp only [compositeScore, vNorm, lNorm, boost, minMaxNormalize, listMin, listMax, List.map]
    norm_num

/-! ## Session turns (modelled from the spec) -/

/-- A conversation turn: role and content (as stored in the `ai_chats` table of
`src/unnamed/part_020`). -/
structure Turn where
  role : String
  content : String
deriving Repr, DecidableEq

/-- Modelled from the spec: the Session Manager's `appendTurn` is a backend
operation absent from the sources.  The turn list is capped at `cap`; when the
cap is exceeded the oldest turns are evicted first (FIFO). -/
def appendTurn (cap : Nat) (turns : List Turn) (t : Turn) : List Turn :=
  let ts := turns ++ [t]
  if ts.length ≤ cap then ts else ts.drop (ts.length - cap)

/-- C4: starting from a turn list within the cap, no sequence of `appendTurn`
operations grows the turn count beyond the cap, and an append at the cap evicts
exactly the oldest turn (the head of the list). -/
theorem appendTurn_cap_fifo (cap : Nat) (init ops : List Turn) (hcap : 0 < cap)
    (hinit : init.length ≤ cap) :
    (ops.foldl (appendTurn cap) init).length ≤ cap ∧
      ∀ (turns : List Turn) (t : Turn), turns.length = cap →
        appendTurn cap turns t = turns.tail ++ [t] := by
  constructor
  · induction ops generalizing init with
    | nil => exact hinit
    | cons op ops ih =>
      apply ih
      unfold appendTurn
      by_cases h : (init ++ [op]).length ≤ cap
      · rw [if_pos h]; exact h
      · rw [if_neg h]
        rw [List.length_drop]
        push_neg at h
        omega
  · intro turns t hlen
    unfold appendTurn
    have hts : (turns ++ [t]).length = cap + 1 := by simp [hlen]
    rw [if_neg (by omega), hts]
    have h1 : cap + 1 - cap = 1 := by omega
    rw [h1, List.drop_append_of_le_length (by omega), List.drop_one]

/-- Witness for C4: cap 2, three appends starting from the empty list. -/
theorem appendTurn_cap_fifo_witness :
    (([⟨"user", "a"⟩, ⟨"assistant", "b"⟩, ⟨"user", "c"⟩] : List Turn).foldl
        (appendTurn 2) []).length ≤ 2 ∧
      ∀ (turns : List Turn) (t : Turn), turns.length = 2 →
        appendTurn 2 turns t = turns.tail ++ [t] :=
  appendTurn_cap_fifo 2 [] [⟨"user", "a"⟩, ⟨"assistant", "b"⟩, ⟨"user", "c"⟩]
    (by decide) (by decide)

/-! ## Chunker and ingestion pipeline (modelled from the spec) -/

/-- Modelled from the spec: the chunker loop of the Ingestion Pipeline (absent
from the sources) — repeatedly take a span of at most `maxLen` characters and
advance by `step` characters, so that consecutive chunks share a fixed overlap.
`fuel` bounds the recursion. -/
def chunkGo (maxLen step : Nat) : Nat → List Char → List (List Char)
  | 0, _ => []
  | _, [] => []
  | fuel + 1, text =>
    if text.length ≤ maxLen then [text]
    else text.take maxLen :: chunkGo maxLen step fuel (text.drop step)

/-- Modelled from the spec: deterministic chunking of a document's full text
given the chunking parameters (maximum span length and overlap window). -/
def chunkText (maxLen overlap : Nat) (text : List Char) : List (List Char) :=
  chunkGo maxLen (maxLen - overlap) text.length text

/-- Modelled from the spec: the embedding capability is idempotent for identical
input and model version; it is modelled as a deterministic function of the chunk
text and the model version. -/
def embed (modelVersion : Nat) (text : List Char) : List Int :=
  text.map (fun c => (c.toNat : Int) + modelVersion)

/-- An IndexEntry of the Vector Index: owning document id, chunk sequence index,
chunk text (its boundaries), embedding, and embedding-model version. -/
structure IndexEntry where
  docId : Nat
  seqIndex : Nat
  text : List Char
  embedding : List Int
  modelVersion : Nat
deriving Repr, DecidableEq

/-- The index entries produced by ingesting one document: one entry per chunk,
in chunk sequence order. -/
def entriesFor (maxLen overlap modelVersion docId : Nat) (text : List Char) :
    List IndexEntry :=
  (chunkText maxLen overlap text).enum.map
    (fun p => ⟨docId, p.1, p.2, embed modelVersion p.2, modelVersion⟩)

/-- Modelled from the spec: ingesting a document replaces all of its index
entries atomically — old entries for the document are removed and the new chunk
set is appended. -/
def ingestDoc (maxLen overlap modelVersion docId : Nat) (text : List Char)
    (st : List IndexEntry) : List IndexEntry :=
  st.filter (fun e => e.docId != docId) ++ entriesFor maxLen overlap modelVersion docId text

theorem entriesFor_docId (maxLen overlap ver d : Nat) (text : List Char) :
    ∀ e ∈ entriesFor maxLen overlap ver d text, e.docId = d := by
  intro e he
  unfold entriesFor at he
  obtain ⟨p, _, rfl⟩ := List.mem_map.mp he
  rfl

/-- C6: ingesting a document a second time with unchanged text and unchanged
embedding-model version leaves the index state unchanged — the second ingestion
produces identical chunk boundaries and identical embeddings. -/
theorem ingestDoc_idempotent (maxLen overlap ver docId : Nat) (text : List Char)
    (st : List IndexEntry) :
    ingestDoc maxLen overlap ver docId text (ingestDoc maxLen overlap ver docId text st) =
      ingestDoc maxLen overlap ver docId text st := by
  unfold ingestDoc
  rw [List.filter_append]
  have h1 : (entriesFor maxLen overlap ver docId text).filter (fun e => e.docId != docId) = [] := by
    rw [List.filter_eq_nil_iff]
    intro e he
    have := entriesFor_docId maxLen overlap ver docId text e he
    simp [this]
  rw [h1, List.filter_filter]
  simp

/-! ## Vector index deletion and search (modelled from the spec) -/

/-- Modelled from the spec: deleting a document removes all of its index
entries. -/
def deleteDoc (docId : Nat) (st : List IndexEntry) : List IndexEntry :=
  st.filter (fun e => e.docId != docId)

/-- Dot product of two integer vectors (similarity of an entry to the query). -/
def dot : List Int → List Int → Int
  | x :: xs, y :: ys => x * y + dot xs ys
  | _, _ => 0

/-- Search order: entries with larger similarity to the query vector first. -/
def simBefore (q : List Int) (a b : IndexEntry) : Prop :=
  dot q b.embedding ≤ dot q a.embedding

instance (q : List Int) : DecidableRel (simBefore q) := fun a b =>
  inferInstanceAs (Decidable (dot q b.embedding ≤ dot q a.embedding))

instance (q : List Int) : IsTotal IndexEntry (simBefore q) :=
  ⟨fun a b => le_total (dot q b.embedding) (dot q a.embedding)⟩

instance (q : List Int) : IsTrans IndexEntry (simBefore q) :=
  ⟨fun _ _ _ hab hbc => le_trans hbc hab⟩

/-- Modelled from the spec: a search with no filter predicates ranks all stored
entries by similarity to the query vector and returns the top `k`. -/
def searchNoFilter (q : List Int) (k : Nat) (st : List IndexEntry) : List IndexEntry :=
  (List.insertionSort (simBefore q) st).take k

/-- C7: after deleting a document, a search with no filters never returns an
entry belonging to the deleted document. -/
theorem search_after_delete_excludes_doc (q : List Int) (k docId : Nat)
    (st : List IndexEntry) (e : IndexEntry)
    (he : e ∈ searchNoFilter q k (deleteDoc docId st)) : e.docId ≠ docId := by
  have h1 : e ∈ List.insertionSort (simBefore q) (deleteDoc docId st) :=
    List.mem_of_mem_take he
  have h2 : e ∈ deleteDoc docId st := (List.mem_insertionSort _).mp h1
  have h3 := List.mem_filter.mp h2
  simpa using h3.2

/-- Witness for C7: a two-document index, document 1 deleted; the remaining
entry returned by the search belongs to document 2. -/
theorem search_after_delete_excludes_doc_witness :
    (⟨2, 0, ['b'], [2], 0⟩ : IndexEntry).docId ≠ 1 :=
  search_after_delete_excludes_doc [1] 5 1
    [⟨1, 0, ['a'], [1], 0⟩, ⟨2, 0, ['b'], [2], 0⟩] ⟨2, 0, ['b'], [2], 0⟩ (by decide)

/-! ## Session manager: session resolution (modelled from the spec) -/

/-- A conversation session: session id and ordered turn list. -/
structure Session where
  sessionId : Nat
  turns : List Turn
deriving Repr, DecidableEq

/-- The session ids present in a session store. -/
def sessionIds (store : List Session) : List Nat := store.map Session.sessionId

/-- A session id not yet present in the store (one more than the largest id). -/
def freshSessionId (store : List Session) : Nat := (sessionIds store).foldr max 0 + 1

/-- Session lookup by id. -/
def lookupSession (sid : Nat) (store : List Session) : Option Session :=
  store.find? (fun s => s.sessionId == sid)

/-- Modelled from the spec: the Session Manager's `getOrCreate` (absent from the
sources) — an absent or unknown session id starts a new session with a fresh
id. -/
def getOrCreate (sid? : Option Nat) (store : List Session) : Nat × List Session :=
  match sid? with
  | none => (freshSessionId store, ⟨freshSessionId store, []⟩ :: store)
  | some sid =>
    match lookupSession sid store with
    | some s => (s.sessionId, store)
    | none => (freshSessionId store, ⟨freshSessionId store, []⟩ :: store)

/-- Modelled from the spec: session resolution inside the chat operation never
produces an error — it returns the (possibly fresh) session id and the updated
store. -/
def chatSessionStep (sid? : Option Nat) (store : List Session) :
    Except String (Nat × List Session) :=
  Except.ok (getOrCreate sid? store)

theorem le_foldr_max (l : List Nat) (x : Nat) (hx : x ∈ l) : x ≤ l.foldr max 0 := by
  induction l with
  | nil => cases hx
  | cons y ys ih =>
    rcases List.mem_cons.mp hx with rfl | h
    · exact Nat.le_max_left x (ys.foldr max 0)
    · exact le_trans (ih h) (Nat.le_max_right y (ys.foldr max 0))

theorem freshSessionId_not_mem (store : List Session) :
    ∀ s ∈ store, s.sessionId ≠ freshSessionId store := by
  intro s hs heq
  have h1 : s.sessionId ∈ sessionIds store := List.mem_map_of_mem _ hs
  have h2 := le_foldr_max (sessionIds store) s.sessionId h1
  unfold freshSessionId at heq
  omega

/-- C8: a chat call supplying a session id for which no session exists is
treated as starting a new session — it succeeds (no error), a fresh session id
is created and returned, and the new session is registered in the store. -/
theorem chat_unknown_session_starts_new (sid : Nat) (store : List Session)
    (h : lookupSession sid store = none) :
    chatSessionStep (some sid) store =
      Except.ok (freshSessionId store, ⟨freshSessionId store, []⟩ :: store) ∧
    (∀ s ∈ store, s.sessionId ≠ freshSessionId store) ∧
    lookupSession (freshSessionId store) (⟨freshSessionId store, []⟩ :: store) =
      some ⟨freshSessionId store, []⟩ := by
  refine ⟨?_, freshSessionId_not_mem store, ?_⟩
  · simp [chatSessionStep, getOrCreate, h]
  · unfold lookupSession
    simp [List.find?]

/-- Witness for C8: a store holding session 1, queried with unknown id 5. -/
theorem chat_unknown_session_starts_new_witness :
    chatSessionStep (some 5) [⟨1, []⟩] =
      Except.ok (freshSessionId [⟨1, []⟩], ⟨freshSessionId [⟨1, []⟩], []⟩ :: [⟨1, []⟩]) ∧
    (∀ s ∈ ([⟨1, []⟩] : List Session), s.sessionId ≠ freshSessionId [⟨1, []⟩]) ∧
    lookupSession (freshSessionId [⟨1, []⟩]) (⟨freshSessionId [⟨1, []⟩], []⟩ :: [⟨1, []⟩]) =
      some ⟨freshSessionId [⟨1, []⟩], []⟩ :=
  chat_unknown_session_starts_new 5 [⟨1, []⟩] (by decide)

/-! ## C1: shape of the chat response -/

/-- C1 (counterexample): the chat response declared by the code does not carry
the fields claimed — `degraded`, `confidence`, `citedChunkIds`, `sessionId` and
`answer` are all absent from the declared `ChatResponse` interface. -/
theorem chatResponse_spec_fields_refuted :
    ¬ ("sessionId" ∈ chatResponseFields ∧ "answer" ∈ chatResponseFields ∧
       "citedChunkIds" ∈ chatResponseFields ∧ "confidence" ∈ chatResponseFields ∧
       "degraded" ∈ chatResponseFields) := by
  decide

/-- C1 (amended): every chat response carries exactly the fields declared by the
`ChatResponse` interface — `content`, `tokens_used` and the optional `sources`;
in particular it carries no `citedChunkIds` list, no `confidence` value and no
boolean `degraded` flag. -/
theorem chatResponse_declared_fields :
    chatResponseFields = ["content", "tokens_used", "sources"] ∧
    "citedChunkIds" ∉ chatResponseFields ∧ "confidence" ∉ chatResponseFields ∧
    "degraded" ∉ chatResponseFields := by
  decide

/-! ## C5: degraded-mode search fallback -/

/-- Modelled from the spec: the exposed search operation with an availability
flag for the Vector Index — when the index is unavailable it falls back to
lexical-only ranking by setting the vector weight to `0`.  The response shape of
the search endpoint is the one declared in the sources (`answer`, `sources`,
`confidence`). -/
def searchOp (vectorAvailable : Bool) (cfg : RankerConfig) (cands : List Candidate) :
    List Candidate :=
  if vectorAvailable then hybridRank cfg cands
  else hybridRank ⟨0, cfg.wL, cfg.boostValue⟩ cands

/-- C5 (counterexample): the search response declared by the code carries no
`degraded` flag — its fields are `answer`, `sources` and `confidence` only. -/
theorem searchResponse_degraded_flag_refuted :
    ¬ ("degraded" ∈ semanticSearchResponseFields) := by
  decide

/-- C5 (amended): when the Vector Index is unavailable the search does not fail —
it falls back to lexical-only ranking with vector weight `0` and returns a
non-empty result whenever lexical matches exist; the response, however, carries
no explicit `degraded` flag (its declared fields are `answer`, `sources`,
`confidence`). -/
theorem search_lexical_fallback (cfg : RankerConfig) (cands : List Candidate)
    (hne : cands ≠ []) :
    searchOp false cfg cands = hybridRank ⟨0, cfg.wL, cfg.boostValue⟩ cands ∧
    searchOp false cfg cands ≠ [] ∧
    "degraded" ∉ semanticSearchResponseFields := by
  refine ⟨rfl, ?_, by decide⟩
  unfold searchOp hybridRank
  intro hcontra
  simp only [Bool.false_eq_true, if_false] at hcontra
  have hlen := (List.perm_insertionSort
    (rankBefore ⟨0, cfg.wL, cfg.boostValue⟩ cands) cands).length_eq
  rw [hcontra] at hlen
  exact hne (List.eq_nil_of_length_eq_zero hlen.symm)

/-- Witness for C5 (amended): a single lexical match. -/
theorem search_lexical_fallback_witness :
    searchOp false ⟨1, 1, 0⟩ [⟨1, 0, 1, false⟩] =
      hybridRank ⟨0, 1, 0⟩ [⟨1, 0, 1, false⟩] ∧
    searchOp false ⟨1, 1, 0⟩ [⟨1, 0, 1, false⟩] ≠ [] ∧
    "degraded" ∉ semanticSearchResponseFields :=
  search_lexical_fallback ⟨1, 1, 0⟩ [⟨1, 0, 1, false⟩] (by decide)

/-! ## LRUCache (from `src/frontend/src/utils/performance.ts`, lines 389–439)

The JavaScript `Map` backing the cache is modelled as a list of entries in
insertion order (the head is the oldest key); `Map.set` on an existing key
updates the value in place, on a new key it appends; `Map.delete` removes the
entry with that key. -/

/-- One stored cache entry: key, value and absolute expiry time. -/
structure CacheEntry where
  key : Nat
  value : Nat
  expiry : Nat
deriving Repr, DecidableEq

/-- Lookup of the entry stored under `k` (`Map.get`). -/
def mapLookup (k : Nat) (c : List CacheEntry) : Option CacheEntry :=
  c.find? (fun e => e.key == k)

/-- Removal of the entry stored under `k` (`Map.delete`). -/
def mapDelete (k : Nat) (c : List CacheEntry) : List CacheEntry :=
  c.filter (fun e => e.key != k)

/-- Insertion (`Map.set`): an existing key is updated in place, a new key is
appended at the end (most recent position). -/
def mapSet (k v exp : Nat) (c : List CacheEntry) : List CacheEntry :=
  if (mapLookup k c).isSome then
    c.map (fun e => if e.key == k then ⟨k, v, exp⟩ else e)
  else c ++ [⟨k, v, exp⟩]

/-- `LRUCache.get`: a missing key returns nothing; an entry whose expiry has
passed (`Date.now() > item.expiry`) is deleted and nothing is returned; a live
entry is moved to the most-recent position and its value returned. -/
def lruGet (now k : Nat) (c : List CacheEntry) : Option Nat × List CacheEntry :=
  match mapLookup k c with
  | none => (none, c)
  | some e =>
    if e.expiry < now then (none, mapDelete k c)
    else (some e.value, mapDelete k c ++ [e])

/-- Eviction step of `LRUCache.set`: delete the entry of the first (oldest)
key, `this.cache.keys().next().value`. -/
def evictOldest (c : List CacheEntry) : List CacheEntry :=
  match c with
  | [] => []
  | e :: rest => mapDelete e.key (e :: rest)

/-- `LRUCache.set`: when the size has reached `maxSize` the oldest key is
evicted first, then the entry is stored with expiry `now + ttl`. -/
def lruSet (maxSize now k v ttl : Nat) (c : List CacheEntry) : List CacheEntry :=
  mapSet k v (now + ttl) (if maxSize ≤ c.length then evictOldest c else c)

/-- An observable cache operation. -/
inductive CacheOp where
  | get (now k : Nat)
  | set (now k v ttl : Nat)
  | del (k : Nat)
deriving Repr, DecidableEq

/-- One step of the cache state machine. -/
def cacheStep (maxSize : Nat) (c : List CacheEntry) : CacheOp → List CacheEntry
  | .get now k => (lruGet now k c).2
  | .set now k v ttl => lruSet maxSize now k v ttl c
  | .del k => mapDelete k c

theorem mapSet_length_le (k v exp : Nat) (c : List CacheEntry) :
    (mapSet k v exp c).length ≤ c.length + 1 := by
  unfold mapSet
  by_cases h : (mapLookup k c).isSome
  · rw [if_pos h, List.length_map]; omega
  · rw [if_neg h, List.length_append]; simp

theorem mapDelete_length_le (k : Nat) (c : List CacheEntry) :
    (mapDelete k c).length ≤ c.length :=
  List.length_filter_le _ c

theorem mapDelete_length_lt (k : Nat) (c : List CacheEntry)
    (h : (mapLookup k c).isSome) : (mapDelete k c).length < c.length := by
  unfold mapDelete
  rw [List.length_filter_lt_length_iff_exists]
  obtain ⟨e, he⟩ := Option.isSome_iff_exists.mp h
  refine ⟨e, List.mem_of_find?_eq_some he, ?_⟩
  have := List.find?_some he
  simp_all

theorem evictOldest_length_lt (c : List CacheEntry) (h : c ≠ []) :
    (evictOldest c).length < c.length := by
  cases c with
  | nil => exact absurd rfl h
  | cons e rest =>
    apply mapDelete_length_lt
    unfold mapLookup
    simp [List.find?]

theorem lruGet_of_none (now k : Nat) (c : List CacheEntry)
    (h : mapLookup k c = none) : lruGet now k c = (none, c) := by
  simp [lruGet, h]

theorem lruGet_of_expired (now k : Nat) (c : List CacheEntry) (e : CacheEntry)
    (h : mapLookup k c = some e) (hexp : e.expiry < now) :
    lruGet now k c = (none, mapDelete k c) := by
  simp [lruGet, h, hexp]

theorem lruGet_of_live (now k : Nat) (c : List CacheEntry) (e : CacheEntry)
    (h : mapLookup k c = some e) (hexp : ¬ e.expiry < now) :
    lruGet now k c = (some e.value, mapDelete k c ++ [e]) := by
  simp [lruGet, h, hexp]

theorem cacheStep_length (maxSize : Nat) (hms : 1 ≤ maxSize) (c : List CacheEntry)
    (hc : c.length ≤ maxSize) (op : CacheOp) :
    (cacheStep maxSize c op).length ≤ maxSize := by
  cases op with
  | get now k =>
    show ((lruGet now k c).2).length ≤ maxSize
    cases hfind : mapLookup k c with
    | none => rw [lruGet_of_none now k c hfind]; exact hc
    | some e =>
      by_cases hexp : e.expiry < now
      · rw [lruGet_of_expired now k c e hfind hexp]
        exact le_trans (mapDelete_length_le k c) hc
      · rw [lruGet_of_live now k c e hfind hexp]
        simp only [List.length_append, List.length_cons, List.length_nil]
        have := mapDelete_length_lt k c (by rw [hfind]; rfl)
        omega
  | set now k v ttl =>
    show (lruSet maxSize now k v ttl c).length ≤ maxSize
    unfold lruSet
    by_cases hfull : maxSize ≤ c.length
    · rw [if_pos hfull]
      have hne : c ≠ [] := by
        intro hnil
        rw [hnil] at hfull
        simp at hfull
        omega
      have h1 := evictOldest_length_lt c hne
      have h2 := mapSet_length_le k v (now + ttl) (evictOldest c)
      omega
    · rw [if_neg hfull]
      have h2 := mapSet_length_le k v (now + ttl) c
      omega
  | del k => exact le_trans (mapDelete_length_le k c) hc

/-- C9: for every sequence of cache operations starting from the empty cache the
number of stored entries never exceeds `maxSize`, and `get` never returns a
value whose entry has expired — a returned value always comes from a stored
entry whose expiry time has not passed (an expired entry yields nothing and is
deleted). -/
theorem lruCache_invariants (maxSize : Nat) (hms : 1 ≤ maxSize) (ops : List CacheOp) :
    (ops.foldl (cacheStep maxSize) []).length ≤ maxSize ∧
    ∀ (now k v : Nat) (c : List CacheEntry),
      (lruGet now k c).1 = some v →
      ∃ e, mapLookup k c = some e ∧ e.value = v ∧ ¬ (e.expiry < now) := by
  constructor
  · have main : ∀ (l : List CacheOp) (c : List CacheEntry), c.length ≤ maxSize →
        (l.foldl (cacheStep maxSize) c).length ≤ maxSize := by
      intro l
      induction l with
      | nil => intro c hc; exact hc
      | cons op l ih =>
        intro c hc
        exact ih _ (cacheStep_length maxSize hms c hc op)
    exact main ops [] (by simp)
  · intro now k v c hv
    cases hfind : mapLookup k c with
    | none => rw [lruGet_of_none now k c hfind] at hv; cases hv
    | some e =>
      by_cases hexp : e.expiry < now
      · rw [lruGet_of_expired now k c e hfind hexp] at hv; cases hv
      · rw [lruGet_of_live now k c e hfind hexp] at hv
        exact ⟨e, rfl, by simpa using hv, hexp⟩

/-- Witness for C9: capacity 1, two inserts and a get. -/
theorem lruCache_invariants_witness :
    (([CacheOp.set 0 1 10 5, CacheOp.set 0 2 20 5, CacheOp.get 3 2] : List CacheOp).foldl
        (cacheStep 1) []).length ≤ 1 ∧
    ∀ (now k v : Nat) (c : List CacheEntry),
      (lruGet now k c).1 = some v →
      ∃ e, mapLookup k c = some e ∧ e.value = v ∧ ¬ (e.expiry < now) :=
  lruCache_invariants 1 (by decide) [CacheOp.set 0 1 10 5, CacheOp.set 0 2 20 5, CacheOp.get 3 2]

/-! ## Category tree (from `useCategories`, `src/unnamed/part_015`, lines 190–204)

The hook builds a map from category id to a node, then places every category
either into its parent's `children` (when `cat.parent_id` is truthy and the map
has it) or into the root list.  The resulting placement is embedded below as
two filter functions on the fetched list. -/

/-- A category row as fetched by the hook: id, parent id (nullable) and name. -/
structure Category where
  id : Nat
  parent_id : Option Nat
  name : String
deriving Repr, DecidableEq

/-- The ids of the fetched categories (the keys of the id-to-node map). -/
def catIds (cats : List Category) : List Nat := cats.map Category.id

/-- The placement condition of the tree construction:
`cat.parent_id && map.has(cat.parent_id)` — the parent id is truthy (non-null
and non-zero) and present among the fetched ids. -/
def hasParentInList (cats : List Category) (c : Category) : Bool :=
  match c.parent_id with
  | none => false
  | some p => decide (p ≠ 0) && decide (p ∈ catIds cats)

/-- The root nodes of the constructed `categoryTree`: categories whose placement
condition fails. -/
def categoryRoots (cats : List Category) : List Category :=
  cats.filter (fun c => ! hasParentInList cats c)

/-- The children pushed under the node with id `pid`, in fetch order. -/
def categoryChildren (cats : List Category) (pid : Nat) : List Category :=
  cats.filter (fun c => hasParentInList cats c && decide (c.parent_id = some pid))

theorem sum_map_ite (l : List Category) (f : Category → Bool) (n : Nat) :
    (l.map (fun p => if f p then n else 0)).sum = n * l.countP f := by
  induction l with
  | nil => simp
  | cons x xs ih =>
    simp only [List.map_cons, List.sum_cons, List.countP_cons, ih]
    by_cases h : f x
    · simp [h]
      ring
    · simp [h]

theorem count_filter_of_neg {c : Category} {p : Category → Bool} {l : List Category}
    (h : p c = false) : List.count c (l.filter p) = 0 := by
  apply List.count_eq_zero_of_not_mem
  intro hmem
  have := (List.mem_filter.mp hmem).2
  rw [h] at this
  cases this

theorem countP_id_eq_one (cats : List Category) (hnd : (catIds cats).Nodup)
    (q : Nat) (hq : q ∈ catIds cats) :
    cats.countP (fun p => p.id == q) = 1 := by
  have h1 : List.count q (catIds cats) = 1 := List.count_eq_one_of_mem hnd hq
  unfold catIds at h1
  rw [List.count, List.countP_map] at h1
  simpa [Function.comp] using h1

/-- C10: with distinct ids, the constructed category tree contains each fetched
category exactly once — counted over the root list and all children lists the
category occurs once; it sits under its parent's node when its `parent_id` is
truthy and refers to another fetched category, and in the root list
otherwise. -/
theorem categoryTree_partition (cats : List Category) (hnd : (catIds cats).Nodup)
    (c : Category) (hc : c ∈ cats) :
    (List.count c (categoryRoots cats) +
        ((cats.map (fun p => List.count c (categoryChildren cats p.id))).sum) = 1) ∧
    (hasParentInList cats c = true →
      ∃ p, p ∈ cats ∧ c.parent_id = some p.id ∧ c ∈ categoryChildren cats p.id) ∧
    (hasParentInList cats c = false → c ∈ categoryRoots cats) := by
  have hndc : cats.Nodup := List.Nodup.of_map _ hnd
  have hcount : List.count c cats = 1 := List.count_eq_one_of_mem hndc hc
  by_cases hb : hasParentInList cats c
  · -- the placement condition holds: c goes under its parent's node
    cases hpid : c.parent_id with
    | none =>
      exfalso
      rw [hasParentInList, hpid] at hb
      cases hb
    | some q =>
      have hq : q ≠ 0 ∧ q ∈ catIds cats := by
        have hb' := hb
        rw [hasParentInList, hpid] at hb'
        simpa using hb'
      have hroots : List.count c (categoryRoots cats) = 0 := by
        apply count_filter_of_neg
        simp [hb]
      have hchild : ∀ p : Category,
          List.count c (categoryChildren cats p.id) = if p.id == q then 1 else 0 := by
        intro p
        by_cases hpq : p.id = q
        · rw [if_pos (by simp [hpq])]
          unfold categoryChildren
          rw [List.count_filter (by simp [hb, hpid, hpq])]
          exact hcount
        · rw [if_neg (by simp [hpq])]
          apply count_filter_of_neg
          simp only [hpid, Bool.and_eq_false_iff]
          right
          simp
          exact fun h => hpq h.symm
      obtain ⟨p, hp, hpq⟩ := List.mem_map.mp hq.2
      refine ⟨?_, ?_, ?_⟩
      · rw [hroots, List.map_congr_left (fun p _ => hchild p), sum_map_ite,
          countP_id_eq_one cats hnd q hq.2]
      · intro _
        refine ⟨p, hp, by simp [hpid, hpq], ?_⟩
        unfold categoryChildren
        exact List.mem_filter.mpr ⟨hc, by simp [hb, hpid, hpq]⟩
      · intro hcontra
        rw [hcontra] at hb
        cases hb
  · -- the placement condition fails: c is a root
    have hb' : hasParentInList cats c = false := by simpa using hb
    have hroots : List.count c (categoryRoots cats) = 1 := by
      unfold categoryRoots
      rw [List.count_filter (by simp [hb'])]
      exact hcount
    refine ⟨?_, ?_, ?_⟩
    · rw [hroots]
      have hzero : ∀ p ∈ cats, List.count c (categoryChildren cats p.id) = 0 := by
        intro p _
        apply count_filter_of_neg
        simp [hb']
      rw [List.map_congr_left hzero]
      simp
    · intro hcontra
      rw [hcontra] at hb'
      cases hb'
    · intro _
      exact List.mem_filter.mpr ⟨hc, by simp [hb']⟩

/-- Witness for C10: a root and one child. -/
theorem categoryTree_partition_witness :
    (List.count (⟨2, some 1, "b"⟩ : Category)
        (categoryRoots [⟨1, none, "a"⟩, ⟨2, some 1, "b"⟩]) +
      (([⟨1, none, "a"⟩, ⟨2, some 1, "b"⟩] : List Category).map
        (fun p => List.count (⟨2, some 1, "b"⟩ : Category)
          (categoryChildren [⟨1, none, "a"⟩, ⟨2, some 1, "b"⟩] p.id))).sum = 1) ∧
    (hasParentInList [⟨1, none, "a"⟩, ⟨2, some 1, "b"⟩] ⟨2, some 1, "b"⟩ = true →
      ∃ p, p ∈ ([⟨1, none, "a"⟩, ⟨2, some 1, "b"⟩] : List Category) ∧
        (⟨2, some 1, "b"⟩ : Category).parent_id = some p.id ∧
        (⟨2, some 1, "b"⟩ : Category) ∈
          categoryChildren [⟨1, none, "a"⟩, ⟨2, some 1, "b"⟩] p.id) ∧
    (hasParentInList [⟨1, none, "a"⟩, ⟨2, some 1, "b"⟩] ⟨2, some 1, "b"⟩ = false →
      (⟨2, some 1, "b"⟩ : Category) ∈
        categoryRoots [⟨1, none, "a"⟩, ⟨2, some 1, "b"⟩]) :=
  categoryTree_partition [⟨1, none, "a"⟩, ⟨2, some 1, "b"⟩] (by decide)
    ⟨2, some 1, "b"⟩ (by decide)

end Difangzhi
